import Mathlib

/-!
Verification of the triggered continuous-acquisition engine in
src/chwspi.c against its natural-language specification.

The program is embedded shallowly:

* machine `int` values become `Int` (readings are 10-bit ADC codes, far from
  any overflow boundary, and `s_counter` is reset long before it could wrap);
* the global configuration constants `samples` (the window capacity W),
  `CHN_AMOUNT` (the channel count C) and `threshold` (T) become explicit
  parameters of every function, with the source's concrete values recorded
  as definitions (`samples0`, `CHN_AMOUNT0`, `threshold0`);  `blocks` is 1
  in the source, so every `CHN_AMOUNT * blocks` in the C code is rendered
  as the channel-count parameter `C`;
* the SPI transfer (`spi_transfer`) is an external sample source: its result
  for one tick is `Option (List Int)` — `none` models the `ioctl` call
  failing, in which case `spi_transfer` returns `NULL` and `main`
  dereferences the null pointer at `data_buf[j]`, killing the process;
  the embedded run therefore aborts (returns `none`) at that tick;
* the persistence sink (`write_file`) gets a boolean `sinkOk`: when `fopen`
  fails the C code calls `fprintf` on a `NULL` stream, killing the process,
  so a failed sink likewise aborts the embedded run;
* the ring buffer `data`, allocated with `malloc` and never initialised,
  starts as an arbitrary list `init` of length `W * C`.

The continuous-mode loop state additionally carries two ghost fields that
do not influence the computation: the absolute tick count `t` and the list
of captures that were handed to the persistence sink, each tagged with the
tick at which it completed.
-/

namespace Chwspi

/-- Channel count, `#define CHN_AMOUNT 4` (src/chwspi.c line 32). -/
def CHN_AMOUNT0 : Nat := 4

/-- Blocks read at once, `const int blocks = 1` (line 37). -/
def blocks0 : Nat := 1

/-- Samples per channel (the window capacity W), `const int samples = 20000`
(line 38). -/
def samples0 : Nat := 20000

/-- Level threshold, `const int threshold = 450` (line 41). -/
def threshold0 : Int := 450

/-- Body of the `fix_buffer` loop (src/chwspi.c lines 119-122): `c` counts the
remaining iterations, `i` is the read cursor, and `total` is
`samples * CHN_AMOUNT`.  Each iteration first wraps the cursor
(`if (i >= samples * CHN_AMOUNT) { i = 0; }`), then emits `buf[i]` and
increments the cursor. -/
def fixAux (total : Nat) (buf : List Int) : Nat → Nat → List Int
  | 0, _ => []
  | c + 1, i =>
    let iw := if total ≤ i then 0 else i
    buf.getD iw 0 :: fixAux total buf c (iw + 1)

/-- Embedding of `fix_buffer` (src/chwspi.c lines 118-125), with the global
constants `samples` and `CHN_AMOUNT` as parameters `W` and `C`.  The C
function writes into a caller-provided buffer `buf_r` and returns it; here
the result list is returned directly. -/
def fix_buffer (W C : Nat) (buf : List Int) (offset : Nat) : List Int :=
  fixAux (W * C) buf (W * C) (offset * C)

/-- One iteration of the per-channel loop inside continuous mode
(src/chwspi.c lines 198-205): given the pair `p = (data, s_counter)` and the
channel index `j`, store `data_buf[j]` at `data[i * CHN_AMOUNT + j]`
(`base = i * CHN_AMOUNT`), and run the trigger check
`if (!s_counter && (data_buf[j] >= threshold)) { s_counter = 1; }`. -/
def chanStep (T : Int) (buf : List Int) (base : Nat) (p : List Int × Nat) (j : Nat) :
    List Int × Nat :=
  (p.1.set (base + j) (buf.getD j 0),
   if p.2 = 0 ∧ T ≤ buf.getD j 0 then 1 else p.2)

/-- Pure write part of the per-channel loop: `data[base + j] = data_buf[j]`
for `j = 0, …, C-1`.  This is also the body of the single-burst mode loop
(src/chwspi.c lines 222-224). -/
def writeTick (buf : List Int) (base C : Nat) (d : List Int) : List Int :=
  (List.range C).foldl (fun d j => d.set (base + j) (buf.getD j 0)) d

/-- State of the continuous-mode loop (src/chwspi.c lines 193-216).
`ring` is the sample store `data`, `s_counter` the sustain counter, and
`i` the C loop variable (the value it has after the `i++` of the previous
iteration, before the wrap test of the next one).  `t` (absolute tick count)
and `captures` (tick-tagged windows handed to `write_file`) are ghost
instrumentation. -/
structure ContState where
  ring : List Int
  s_counter : Nat
  i : Nat
  t : Nat
  captures : List (Nat × List Int)
deriving DecidableEq

/-- One full iteration of the continuous-mode loop body (src/chwspi.c lines
194-215) for a successfully transferred tick `buf`: wrap the loop variable
(`if (i >= samples) { i = 0; }`), store the readings and run the per-channel
trigger check, apply `if (s_counter) { s_counter++; }`, and on
`s_counter >= (samples*2)/3` linearise the ring with `fix_buffer(data,
data_fixed, i)`, hand it to the sink and reset `s_counter` to 0. -/
def contTick (W C : Nat) (T : Int) (st : ContState) (buf : List Int) : ContState :=
  let i := if W ≤ st.i then 0 else st.i
  let p := (List.range C).foldl (chanStep T buf (i * C)) (st.ring, st.s_counter)
  let s2 := if p.2 = 0 then 0 else p.2 + 1
  if W * 2 / 3 ≤ s2 then
    { ring := p.1, s_counter := 0, i := i + 1, t := st.t + 1,
      captures := st.captures ++ [(st.t, fix_buffer W C p.1 i)] }
  else
    { ring := p.1, s_counter := s2, i := i + 1, t := st.t + 1,
      captures := st.captures }

/-- Loop state at program start: uninitialised `malloc`-ed ring contents
`init`, `s_counter = 0`, loop variable `i = 0` (src/chwspi.c lines 181-193). -/
def initState (init : List Int) : ContState :=
  { ring := init, s_counter := 0, i := 0, t := 0, captures := [] }

/-- Continuous-mode run in which every SPI transfer succeeds and every
persistence call succeeds: the state after `n` iterations of the loop, where
tick `k` (0-based) delivers the readings `ts k`. -/
def contRunOk (W C : Nat) (T : Int) (init : List Int) (ts : Nat → List Int) :
    Nat → ContState
  | 0 => initState init
  | n + 1 => contTick W C T (contRunOk W C T init ts n) (ts n)

/-- One continuous-mode iteration with both failure modes.  `tr = none`
models a failed `ioctl`: `spi_transfer` returns `NULL` (lines 100-103) and
`main` dereferences it at `data_buf[j]` (line 199), killing the process
before the tick is stored — the embedded step aborts.  `sinkOk = false`
models `fopen` failing inside `write_file` (line 128): the unchecked
`fprintf(fp, …)` on the `NULL` stream (line 133) kills the process, so an
iteration that completes a capture aborts instead of returning. -/
def contTickE (W C : Nat) (T : Int) (sinkOk : Bool) (st : ContState)
    (tr : Option (List Int)) : Option ContState :=
  match tr with
  | none => none
  | some buf =>
    let st2 := contTick W C T st buf
    if st.captures.length < st2.captures.length ∧ sinkOk = false then none
    else some st2

/-- Continuous-mode run over a list of per-tick transfer results, aborting
(`none`) as soon as an iteration crashes. -/
def contRunE (W C : Nat) (T : Int) (sinkOk : Bool) :
    ContState → List (Option (List Int)) → Option ContState
  | st, [] => some st
  | st, tr :: rest =>
    match contTickE W C T sinkOk st tr with
    | none => none
    | some st2 => contRunE W C T sinkOk st2 rest

/-- Single-burst mode loop (src/chwspi.c lines 219-225): `n` iterations, the
`k`-th storing the readings of tick `k` at `data[k * CHN_AMOUNT + j]`
(`blocks = 1`, so `i` advances by 1 per iteration).  No trigger logic
appears: the body never consults `threshold` or `s_counter`. -/
def singleLoop (C : Nat) (ts : Nat → List Int) (init : List Int) : Nat → List Int
  | 0 => init
  | n + 1 => writeTick (ts n) (n * C) C (singleLoop C ts init n)

/-- Single-burst mode of `main` (src/chwspi.c lines 218-226 and the shared
epilogue 228-236): run the acquisition loop for exactly `W` ticks, then hand
the linear buffer to `write_file` once.  The second component lists the
windows passed to the persistence sink, in order. -/
def singleMain (W C : Nat) (init : List Int) (ts : Nat → List Int) :
    List Int × List (List Int) :=
  (singleLoop C ts init W, [singleLoop C ts init W])

/-- Chronological reference window: the readings of ticks
`a, a+1, …, a+n-1`, each contributing its `C` channel values in channel
order.  This definition follows the spec's description of the extracted
window and is used to compare the code's extraction against it. -/
def chron (C : Nat) (ts : Nat → List Int) (a n : Nat) : List Int :=
  (List.range n).flatMap fun m => (List.range C).map fun j => (ts (a + m)).getD j 0

/-- Threshold-crossing predicate of the trigger state machine: some channel's
reading of tick `k` is at least `T` (src/chwspi.c line 201). -/
def crossing (C : Nat) (T : Int) (ts : Nat → List Int) (k : Nat) : Prop :=
  ∃ j, j < C ∧ T ≤ (ts k).getD j 0

instance (C : Nat) (T : Int) (ts : Nat → List Int) (k : Nat) :
    Decidable (crossing C T ts k) := by
  unfold crossing
  infer_instance

/-! ### Basic list and arithmetic helpers -/

/-- Two lists agree once their lengths and all in-range `getD` values agree. -/
lemma list_eq_of_getD (l1 l2 : List Int) (hl : l1.length = l2.length)
    (h : ∀ q, q < l1.length → l1.getD q 0 = l2.getD q 0) : l1 = l2 := by
  refine List.ext_getElem hl fun q h1 h2 => ?_
  have hq := h q h1
  rwa [List.getD_eq_getElem _ _ h1, List.getD_eq_getElem _ _ h2] at hq

/-- Decomposition of a flat ring index: for a channel index `j < C`,
`(a * C + j) % (W * C)` is the slot `a % W` paired with `j`. -/
lemma mul_add_mod_decomp (W C a j : Nat) (hj : j < C) :
    (a * C + j) % (W * C) = a % W * C + j := by
  rcases Nat.eq_zero_or_pos W with hW | hW
  · subst hW
    simp [Nat.mod_zero]
  · have h1 : W * (a / W) + a % W = a := Nat.div_add_mod a W
    have h2 : a % W < W := Nat.mod_lt _ hW
    have hx : a % W * C + j < W * C := by
      have hle : (a % W + 1) * C ≤ W * C := Nat.mul_le_mul_right _ (by omega)
      have he : (a % W + 1) * C = a % W * C + C := by ring
      omega
    have hsplit : a * C + j = a % W * C + j + a / W * (W * C) := by
      calc a * C + j = (W * (a / W) + a % W) * C + j := by rw [h1]
        _ = a % W * C + j + a / W * (W * C) := by ring
    rw [hsplit, Nat.add_mul_mod_self_right, Nat.mod_eq_of_lt hx]

/-! ### The window extractor `fix_buffer` -/

/-- Length of the linearisation loop's output equals its iteration count. -/
lemma fixAux_length (total : Nat) (buf : List Int) :
    ∀ c i, (fixAux total buf c i).length = c := by
  intro c
  induction c with
  | zero => intro i; rfl
  | succ c ih => intro i; simp [fixAux, ih]

/-- Closed form of the linearisation loop: starting the cursor at `i ≤ total`
over a store of `total > 0` cells, the `k`-th emitted value is
`buf[(i + k) % total]`. -/
lemma fixAux_eq_map (total : Nat) (buf : List Int) (htotal : 0 < total) :
    ∀ c i, i ≤ total →
      fixAux total buf c i =
        (List.range c).map fun k => buf.getD ((i + k) % total) 0 := by
  intro c
  induction c with
  | zero => intro i _; rfl
  | succ c ih =>
    intro i hi
    have hiw : (if total ≤ i then 0 else i) < total := by
      split
      · exact htotal
      · omega
    have hstep : fixAux total buf (c + 1) i =
        buf.getD (if total ≤ i then 0 else i) 0 ::
          fixAux total buf c ((if total ≤ i then 0 else i) + 1) := by
      simp only [fixAux]
    rw [hstep, ih _ (by omega), List.range_succ_eq_map, List.map_cons, List.map_map]
    have hhead : buf.getD (if total ≤ i then 0 else i) 0 = buf.getD ((i + 0) % total) 0 := by
      by_cases h : total ≤ i
      · have hieq : i = total := le_antisymm hi h
        simp [h, hieq]
      · simp only [h, if_false]
        rw [Nat.add_zero, Nat.mod_eq_of_lt (by omega)]
    have htail :
        (fun k => buf.getD (((if total ≤ i then 0 else i) + 1 + k) % total) 0) =
          (fun k => buf.getD ((i + k) % total) 0) ∘ Nat.succ := by
      funext k
      by_cases h : total ≤ i
      · have hieq : i = total := le_antisymm hi h
        have h1 : (0 + 1 + k) % total = (1 + k) % total := by norm_num
        have h2 : (i + Nat.succ k) % total = (1 + k) % total := by
          rw [hieq]
          have : total + Nat.succ k = total + (1 + k) := by omega
          rw [this, Nat.add_mod_left]
        simp only [h, if_true, Function.comp_apply]
        rw [h1, h2]
      · have : i + 1 + k = i + Nat.succ k := by omega
        simp only [h, if_false, Function.comp_apply, this]
    rw [hhead, htail]

/-- Closed form of `fix_buffer`: position `c` of the output holds
`buf[(offset * C + c) mod (W * C)]`. -/
lemma fix_buffer_eq_map (W C : Nat) (buf : List Int) (offset : Nat)
    (h : 0 < W * C) (hoff : offset ≤ W) :
    fix_buffer W C buf offset =
      (List.range (W * C)).map fun c => buf.getD ((offset * C + c) % (W * C)) 0 :=
  fixAux_eq_map _ _ h _ _ (Nat.mul_le_mul_right _ hoff)

/-- The output of `fix_buffer` always has exactly `W * C` entries. -/
lemma fix_buffer_len (W C : Nat) (buf : List Int) (offset : Nat) :
    (fix_buffer W C buf offset).length = W * C :=
  fixAux_length _ _ _ _

/-! ### The ring-buffer write loop -/

/-- Unfolding `writeTick` by its last channel. -/
lemma writeTick_succ (buf : List Int) (base C : Nat) (d : List Int) :
    writeTick buf base (C + 1) d =
      (writeTick buf base C d).set (base + C) (buf.getD C 0) := by
  unfold writeTick
  rw [List.range_succ, List.foldl_append]
  rfl

/-- Storing one tick never changes the length of the store. -/
lemma writeTick_length (buf : List Int) (base : Nat) (d : List Int) :
    ∀ C, (writeTick buf base C d).length = d.length := by
  intro C
  induction C with
  | zero => rfl
  | succ C ih => rw [writeTick_succ, List.length_set, ih]

/-- Positions outside the written slot range `[base, base + C)` are untouched. -/
lemma writeTick_getD_out (buf : List Int) (base : Nat) (d : List Int) :
    ∀ C q, (q < base ∨ base + C ≤ q) →
      (writeTick buf base C d).getD q 0 = d.getD q 0 := by
  intro C
  induction C with
  | zero => intro q _; rfl
  | succ C ih =>
    intro q hq
    rw [writeTick_succ, List.getD_eq_getElem?_getD,
      List.getElem?_set_ne (show base + C ≠ q by omega),
      ← List.getD_eq_getElem?_getD]
    exact ih q (by omega)

/-- Positions inside the written slot range receive the tick's readings. -/
lemma writeTick_getD_in (buf : List Int) (base : Nat) (d : List Int) :
    ∀ C j, j < C → base + C ≤ d.length →
      (writeTick buf base C d).getD (base + j) 0 = buf.getD j 0 := by
  intro C
  induction C with
  | zero => intro j hj _; omega
  | succ C ih =>
    intro j hj hlen
    rw [writeTick_succ]
    by_cases hjc : j = C
    · subst hjc
      have hlt : base + j < (writeTick buf base j d).length := by
        rw [writeTick_length]; omega
      rw [List.getD_eq_getElem?_getD, List.getElem?_set_self hlt, Option.getD_some]
    · rw [List.getD_eq_getElem?_getD,
        List.getElem?_set_ne (show base + C ≠ base + j by omega),
        ← List.getD_eq_getElem?_getD]
      exact ih j (by omega) (by omega)

/-! ### The fused write / trigger-check loop of continuous mode -/

/-- The store component of the fused loop is exactly the pure write loop. -/
lemma foldl_chanStep_fst (T : Int) (buf : List Int) (base : Nat) :
    ∀ (l : List Nat) (r : List Int) (s : Nat),
      (l.foldl (chanStep T buf base) (r, s)).1 =
        l.foldl (fun d j => d.set (base + j) (buf.getD j 0)) r := by
  intro l
  induction l with
  | nil => intro r s; rfl
  | cons a l ih =>
    intro r s
    simp only [List.foldl_cons, chanStep]
    rw [ih]

/-- The counter component of the fused loop: a zero counter becomes 1 exactly
when some processed channel reads at least `T`; a nonzero counter is left
alone (the `!s_counter` guard of src/chwspi.c line 201). -/
lemma foldl_chanStep_snd (T : Int) (buf : List Int) (base : Nat) :
    ∀ (l : List Nat) (r : List Int) (s : Nat),
      (l.foldl (chanStep T buf base) (r, s)).2 =
        if s = 0 ∧ ∃ j ∈ l, T ≤ buf.getD j 0 then 1 else s := by
  intro l
  induction l with
  | nil => intro r s; simp
  | cons a l ih =>
    intro r s
    simp only [List.foldl_cons, chanStep]
    rw [ih]
    by_cases hs : s = 0
    · subst hs
      by_cases ha : T ≤ buf.getD a 0
      · have hinner : (if (0 : Nat) = 0 ∧ T ≤ buf.getD a 0 then 1 else 0) = 1 :=
          if_pos ⟨rfl, ha⟩
        rw [hinner,
          if_neg (show ¬((1 : Nat) = 0 ∧ ∃ j ∈ l, T ≤ buf.getD j 0) by simp),
          if_pos ⟨rfl, a, List.mem_cons_self a l, ha⟩]
      · have hinner : (if (0 : Nat) = 0 ∧ T ≤ buf.getD a 0 then 1 else 0) = 0 :=
          if_neg (fun h => ha h.2)
        rw [hinner]
        refine if_congr (and_congr_right fun _ => ?_) rfl rfl
        constructor
        · rintro ⟨j, hj, hTj⟩
          exact ⟨j, List.mem_cons_of_mem a hj, hTj⟩
        · rintro ⟨j, hj, hTj⟩
          rcases List.mem_cons.mp hj with rfl | hm
          · exact absurd hTj ha
          · exact ⟨j, hm, hTj⟩
    · have hinner : (if s = 0 ∧ T ≤ buf.getD a 0 then 1 else s) = s :=
        if_neg (fun h => hs h.1)
      rw [hinner, if_neg (fun h => hs h.1), if_neg (fun h => hs h.1)]

/-! ### Field-level description of one continuous-mode iteration -/

/-- Value of `s_counter` after the per-channel loop of one tick, given its
value `s` on entry (src/chwspi.c lines 201-204). -/
def s1Of (C : Nat) (T : Int) (s : Nat) (buf : List Int) : Nat :=
  if s = 0 ∧ ∃ j, j < C ∧ T ≤ buf.getD j 0 then 1 else s

/-- Value of `s_counter` after the subsequent
`if (s_counter) { s_counter++; }` (src/chwspi.c line 207). -/
def s2Of (C : Nat) (T : Int) (s : Nat) (buf : List Int) : Nat :=
  if s1Of C T s buf = 0 then 0 else s1Of C T s buf + 1

/-- The fused loop over the channel indices `0, …, C-1` computes `s1Of`. -/
lemma foldl_chanStep_snd_range (T : Int) (buf : List Int) (base C : Nat)
    (r : List Int) (s : Nat) :
    ((List.range C).foldl (chanStep T buf base) (r, s)).2 = s1Of C T s buf := by
  rw [foldl_chanStep_snd]
  unfold s1Of
  refine if_congr (and_congr_right fun _ => ?_) rfl rfl
  simp [List.mem_range]

/-- Explicit form of one continuous-mode iteration, with the fused
write/trigger loop split into its write part (`writeTick`) and its counter
part (`s1Of`, folded into `s2Of` together with the post-increment). -/
lemma contTick_eq (W C : Nat) (T : Int) (st : ContState) (buf : List Int) :
    contTick W C T st buf =
      { ring := writeTick buf ((if W ≤ st.i then 0 else st.i) * C) C st.ring,
        s_counter := if W * 2 / 3 ≤ s2Of C T st.s_counter buf then 0
                     else s2Of C T st.s_counter buf,
        i := (if W ≤ st.i then 0 else st.i) + 1,
        t := st.t + 1,
        captures := if W * 2 / 3 ≤ s2Of C T st.s_counter buf then
            st.captures ++
              [(st.t, fix_buffer W C
                 (writeTick buf ((if W ≤ st.i then 0 else st.i) * C) C st.ring)
                 (if W ≤ st.i then 0 else st.i))]
          else st.captures } := by
  have hsnd := foldl_chanStep_snd_range T buf ((if W ≤ st.i then 0 else st.i) * C) C
    st.ring st.s_counter
  have hfst := foldl_chanStep_fst T buf ((if W ≤ st.i then 0 else st.i) * C)
    (List.range C) st.ring st.s_counter
  simp only [contTick]
  rw [hsnd, hfst]
  have hs2 : (if s1Of C T st.s_counter buf = 0 then 0
      else s1Of C T st.s_counter buf + 1) = s2Of C T st.s_counter buf := rfl
  rw [hs2]
  by_cases hcap : W * 2 / 3 ≤ s2Of C T st.s_counter buf
  · rw [if_pos hcap, if_pos hcap, if_pos hcap]
    rfl
  · rw [if_neg hcap, if_neg hcap, if_neg hcap]
    rfl

/-- Ring contents after one continuous-mode iteration: the tick's readings are
stored at the wrapped slot, everything else kept. -/
lemma contTick_ring (W C : Nat) (T : Int) (st : ContState) (buf : List Int) :
    (contTick W C T st buf).ring =
      writeTick buf ((if W ≤ st.i then 0 else st.i) * C) C st.ring := by
  rw [contTick_eq]

/-- Loop variable after one continuous-mode iteration. -/
lemma contTick_i (W C : Nat) (T : Int) (st : ContState) (buf : List Int) :
    (contTick W C T st buf).i = (if W ≤ st.i then 0 else st.i) + 1 := by
  rw [contTick_eq]

/-- Ghost tick counter after one continuous-mode iteration. -/
lemma contTick_t (W C : Nat) (T : Int) (st : ContState) (buf : List Int) :
    (contTick W C T st buf).t = st.t + 1 := by
  rw [contTick_eq]

/-- Sustain counter after one continuous-mode iteration: compute `s2Of`, then
reset to 0 when the capture test `s_counter >= (samples*2)/3` fires. -/
lemma contTick_s_counter (W C : Nat) (T : Int) (st : ContState) (buf : List Int) :
    (contTick W C T st buf).s_counter =
      if W * 2 / 3 ≤ s2Of C T st.s_counter buf then 0
      else s2Of C T st.s_counter buf := by
  rw [contTick_eq]

/-- Capture list after one continuous-mode iteration: when the capture test
fires, the linearised ring (offset = the wrapped loop variable) is appended,
tagged with the current tick. -/
lemma contTick_captures (W C : Nat) (T : Int) (st : ContState) (buf : List Int) :
    (contTick W C T st buf).captures =
      if W * 2 / 3 ≤ s2Of C T st.s_counter buf then
        st.captures ++
          [(st.t, fix_buffer W C
             (writeTick buf ((if W ≤ st.i then 0 else st.i) * C) C st.ring)
             (if W ≤ st.i then 0 else st.i))]
      else st.captures := by
  rw [contTick_eq]

/-! ### Invariants of the continuous-mode run -/

section RunInvariants

variable (W C : Nat) (T : Int) (init : List Int) (ts : Nat → List Int)

/-- One unfolding step of the run. -/
lemma contRunOk_succ (n : Nat) :
    contRunOk W C T init ts (n + 1) =
      contTick W C T (contRunOk W C T init ts n) (ts n) := rfl

/-- The ghost tick counter equals the number of processed ticks. -/
lemma runOk_t : ∀ n, (contRunOk W C T init ts n).t = n := by
  intro n
  induction n with
  | zero => rfl
  | succ n ih => rw [contRunOk_succ, contTick_t, ih]

/-- The stored loop variable after `n + 1` ticks is `n % W + 1`. -/
lemma runOk_i_succ (hW : 0 < W) :
    ∀ n, (contRunOk W C T init ts (n + 1)).i = n % W + 1 := by
  intro n
  induction n with
  | zero =>
    rw [contRunOk_succ, contTick_i]
    have h0 : (contRunOk W C T init ts 0).i = 0 := rfl
    rw [h0, if_neg (by omega), Nat.zero_mod]
  | succ n ih =>
    rw [contRunOk_succ, contTick_i, ih]
    have hlt : n % W < W := Nat.mod_lt _ hW
    have hmod : (n + 1) % W = (n % W + 1) % W := (Nat.mod_add_mod n W 1).symm
    by_cases h : W ≤ n % W + 1
    · have he : n % W + 1 = W := by omega
      rw [if_pos h, hmod, he, Nat.mod_self]
    · rw [if_neg h, hmod, Nat.mod_eq_of_lt (show n % W + 1 < W by omega)]

/-- The wrapped loop variable at the start of tick `n` is `n % W`: the slot
the tick is stored at. -/
lemma runOk_wrap (hW : 0 < W) :
    ∀ n, (if W ≤ (contRunOk W C T init ts n).i then 0
          else (contRunOk W C T init ts n).i) = n % W := by
  intro n
  cases n with
  | zero =>
    have h0 : (contRunOk W C T init ts 0).i = 0 := rfl
    rw [h0, if_neg (by omega), Nat.zero_mod]
  | succ n =>
    rw [runOk_i_succ W C T init ts hW]
    have hlt : n % W < W := Nat.mod_lt _ hW
    have hmod : (n + 1) % W = (n % W + 1) % W := (Nat.mod_add_mod n W 1).symm
    by_cases h : W ≤ n % W + 1
    · have he : n % W + 1 = W := by omega
      rw [if_pos h, hmod, he, Nat.mod_self]
    · rw [if_neg h, hmod, Nat.mod_eq_of_lt (show n % W + 1 < W by omega)]

/-- The ring buffer's length never changes. -/
lemma runOk_ring_length : ∀ n, (contRunOk W C T init ts n).ring.length = init.length := by
  intro n
  induction n with
  | zero => rfl
  | succ n ih => rw [contRunOk_succ, contTick_ring, writeTick_length, ih]

/-- Ring-content invariant: after `n` ticks, the slot `k % W` holds the
readings of tick `k`, for every tick `k` among the last `W` processed ones. -/
lemma runOk_ring_getD (hW : 0 < W) (hlen : init.length = W * C) :
    ∀ n k j, k < n → n ≤ k + W → j < C →
      ((contRunOk W C T init ts n).ring).getD (k % W * C + j) 0 =
        (ts k).getD j 0 := by
  intro n
  induction n with
  | zero => intro k j hk _ _; omega
  | succ n ih =>
    intro k j hk hkW hj
    have hring : (contRunOk W C T init ts (n + 1)).ring =
        writeTick (ts n) (n % W * C) C ((contRunOk W C T init ts n).ring) := by
      rw [contRunOk_succ, contTick_ring, runOk_wrap W C T init ts hW]
    have hlenn : ((contRunOk W C T init ts n).ring).length = W * C := by
      rw [runOk_ring_length]; exact hlen
    have hnW : n % W < W := Nat.mod_lt _ hW
    by_cases hkn : k = n
    · subst hkn
      rw [hring]
      exact writeTick_getD_in _ _ _ C j hj
        (by
          have : (k % W + 1) * C ≤ W * C := Nat.mul_le_mul_right _ (by omega)
          have he : (k % W + 1) * C = k % W * C + C := by ring
          omega)
    · have hkn' : k < n := by omega
      have hne : k % W ≠ n % W := by
        intro h
        have hd : W ∣ n - k := (Nat.modEq_iff_dvd' hkn'.le).mp h
        have := Nat.le_of_dvd (by omega) hd
        omega
      have hkWlt : k % W < W := Nat.mod_lt _ hW
      rw [hring, writeTick_getD_out]
      · exact ih k j hkn' (by omega) hj
      · rcases Nat.lt_or_ge (k % W) (n % W) with h | h
        · left
          have hle : (k % W + 1) * C ≤ n % W * C := Nat.mul_le_mul_right _ (by omega)
          have he : (k % W + 1) * C = k % W * C + C := by ring
          omega
        · right
          have hgt : n % W < k % W := by omega
          have hle : (n % W + 1) * C ≤ k % W * C := Nat.mul_le_mul_right _ (by omega)
          have he : (n % W + 1) * C = n % W * C + C := by ring
          omega

/-- The sustain counter can grow by at most 1 per tick, so it is bounded by the
tick count plus one. -/
lemma runOk_s_le : ∀ n, (contRunOk W C T init ts n).s_counter ≤ n + 1 := by
  intro n
  induction n with
  | zero => exact Nat.zero_le _
  | succ n ih =>
    rw [contRunOk_succ, contTick_s_counter]
    have hs2 : s2Of C T ((contRunOk W C T init ts n).s_counter) (ts n) ≤ n + 2 := by
      unfold s2Of s1Of
      by_cases h0 : (contRunOk W C T init ts n).s_counter = 0
      · by_cases hcr : ∃ j, j < C ∧ T ≤ (ts n).getD j 0
        · have hinner : (if (contRunOk W C T init ts n).s_counter = 0 ∧
              ∃ j, j < C ∧ T ≤ (ts n).getD j 0 then 1
              else (contRunOk W C T init ts n).s_counter) = 1 := if_pos ⟨h0, hcr⟩
          rw [hinner, if_neg one_ne_zero]
          omega
        · have hinner : (if (contRunOk W C T init ts n).s_counter = 0 ∧
              ∃ j, j < C ∧ T ≤ (ts n).getD j 0 then 1
              else (contRunOk W C T init ts n).s_counter) =
              (contRunOk W C T init ts n).s_counter := if_neg (fun h => hcr h.2)
          rw [hinner, if_pos h0]
          omega
      · have hinner : (if (contRunOk W C T init ts n).s_counter = 0 ∧
            ∃ j, j < C ∧ T ≤ (ts n).getD j 0 then 1
            else (contRunOk W C T init ts n).s_counter) =
            (contRunOk W C T init ts n).s_counter := if_neg (fun h => h0 h.1)
        rw [hinner, if_neg h0]
        omega
    split
    · omega
    · omega

/-- Description of capture records: each one was produced at its tagged tick
`p.1` by a firing capture test, and its payload is the linearisation of the
ring right after that tick, at offset `p.1 % W`. -/
lemma runOk_captures_mem (hW : 0 < W) :
    ∀ n p, p ∈ (contRunOk W C T init ts n).captures →
      p.1 < n ∧
      W * 2 / 3 ≤ s2Of C T ((contRunOk W C T init ts p.1).s_counter) (ts p.1) ∧
      p.2 = fix_buffer W C ((contRunOk W C T init ts (p.1 + 1)).ring) (p.1 % W) := by
  intro n
  induction n with
  | zero =>
    intro p hp
    simp only [contRunOk, initState] at hp
    exact absurd hp (List.not_mem_nil p)
  | succ n ih =>
    intro p hp
    rw [contRunOk_succ, contTick_captures, runOk_t] at hp
    by_cases hfire :
        W * 2 / 3 ≤ s2Of C T ((contRunOk W C T init ts n).s_counter) (ts n)
    · rw [if_pos hfire] at hp
      rcases List.mem_append.mp hp with h | h
      · obtain ⟨h1, h2, h3⟩ := ih p h
        exact ⟨by omega, h2, h3⟩
      · have hp2 : p = (n, fix_buffer W C
            (writeTick (ts n)
              ((if W ≤ (contRunOk W C T init ts n).i then 0
                else (contRunOk W C T init ts n).i) * C) C
              ((contRunOk W C T init ts n).ring))
            (if W ≤ (contRunOk W C T init ts n).i then 0
             else (contRunOk W C T init ts n).i)) := by
          simpa using h
        subst hp2
        refine ⟨Nat.lt_succ_self n, hfire, ?_⟩
        rw [contRunOk_succ, contTick_ring, runOk_wrap W C T init ts hW]
    · rw [if_neg hfire] at hp
      obtain ⟨h1, h2, h3⟩ := ih p hp
      exact ⟨by omega, h2, h3⟩

end RunInvariants

/-! ### The chronological reference window -/

/-- Unfolding `chron` by its last tick. -/
lemma chron_succ (C : Nat) (ts : Nat → List Int) (a n : Nat) :
    chron C ts a (n + 1) =
      chron C ts a n ++ (List.range C).map fun j => (ts (a + n)).getD j 0 := by
  unfold chron
  rw [List.range_succ, List.flatMap_append]
  simp

/-- A chronological window over `n` ticks has `n * C` entries. -/
lemma chron_length (C : Nat) (ts : Nat → List Int) (a : Nat) :
    ∀ n, (chron C ts a n).length = n * C := by
  intro n
  induction n with
  | zero =>
    rw [Nat.zero_mul]
    rfl
  | succ n ih =>
    rw [chron_succ, List.length_append, ih, List.length_map, List.length_range]
    ring

/-- Entry `q` of a chronological window is channel `q % C` of tick
`a + q / C`. -/
lemma chron_getD (C : Nat) (ts : Nat → List Int) (a : Nat) :
    ∀ n q, q < n * C →
      (chron C ts a n).getD q 0 = (ts (a + q / C)).getD (q % C) 0 := by
  intro n
  induction n with
  | zero => intro q hq; omega
  | succ n ih =>
    intro q hq
    rcases Nat.eq_zero_or_pos C with hC | hC
    · subst hC
      omega
    rw [chron_succ]
    by_cases hqn : q < n * C
    · rw [List.getD_append _ _ _ _ (by rw [chron_length]; exact hqn)]
      exact ih q hqn
    · have hq1 : n * C ≤ q := by omega
      have hq2 : q < n * C + C := by
        have he : (n + 1) * C = n * C + C := by ring
        omega
      rw [List.getD_append_right _ _ _ _ (by rw [chron_length]; exact hq1),
        chron_length]
      have hd : q - n * C < C := by omega
      have hqsplit : q = (q - n * C) + n * C := by omega
      have hdiv : q / C = n := by
        rw [hqsplit, Nat.add_mul_div_right _ _ hC, Nat.div_eq_of_lt hd]
        omega
      have hmod : q % C = q - n * C := by
        conv_lhs => rw [hqsplit]
        rw [Nat.add_mul_mod_self_right, Nat.mod_eq_of_lt hd]
      rw [List.getD_eq_getElem _ _ (by
            rw [List.length_map, List.length_range]; exact hd),
        List.getElem_map, List.getElem_range, hdiv, hmod]

/-! ### The single-burst mode loop -/

/-- The single-burst loop never changes the buffer's length. -/
lemma singleLoop_length (C : Nat) (ts : Nat → List Int) (init : List Int) :
    ∀ n, (singleLoop C ts init n).length = init.length := by
  intro n
  induction n with
  | zero => rfl
  | succ n ih =>
    show (writeTick (ts n) (n * C) C (singleLoop C ts init n)).length = _
    rw [writeTick_length, ih]

/-- Contents of the single-burst buffer after `n ≤ W` ticks: positions below
`n * C` hold the corresponding tick's readings, the rest still hold the
uninitialised values. -/
lemma singleLoop_getD (W C : Nat) (ts : Nat → List Int) (init : List Int)
    (hlen : init.length = W * C) :
    ∀ n, n ≤ W → ∀ q,
      (singleLoop C ts init n).getD q 0 =
        if q < n * C then (ts (q / C)).getD (q % C) 0 else init.getD q 0 := by
  intro n
  induction n with
  | zero =>
    intro _ q
    rw [if_neg (by omega)]
    rfl
  | succ n ih =>
    intro hn q
    show (writeTick (ts n) (n * C) C (singleLoop C ts init n)).getD q 0 = _
    rcases Nat.eq_zero_or_pos C with hC | hC
    · subst hC
      rw [writeTick_getD_out _ _ _ _ _ (by omega), ih (by omega) q]
      have h1 : n * 0 = 0 := by ring
      have h2 : (n + 1) * 0 = 0 := by ring
      rw [if_neg (by omega), if_neg (by omega)]
    by_cases hq1 : q < n * C
    · rw [writeTick_getD_out _ _ _ _ _ (Or.inl hq1), ih (by omega) q, if_pos hq1,
        if_pos (by have : (n + 1) * C = n * C + C := by ring
                   omega)]
    · by_cases hq2 : q < (n + 1) * C
      · have he : (n + 1) * C = n * C + C := by ring
        have hj : q - n * C < C := by omega
        have hqsplit : q = n * C + (q - n * C) := by omega
        have hwrite : (writeTick (ts n) (n * C) C (singleLoop C ts init n)).getD q 0 =
            (ts n).getD (q - n * C) 0 := by
          conv_lhs => rw [hqsplit]
          exact writeTick_getD_in _ _ _ C _ hj
            (by rw [singleLoop_length, hlen]
                have : (n + 1) * C ≤ W * C := Nat.mul_le_mul_right _ hn
                omega)
        have hdiv : q / C = n := by
          rw [show q = (q - n * C) + n * C by omega, Nat.add_mul_div_right _ _ hC,
            Nat.div_eq_of_lt hj]
          omega
        have hmod : q % C = q - n * C := by
          conv_lhs => rw [show q = (q - n * C) + n * C by omega]
          rw [Nat.add_mul_mod_self_right, Nat.mod_eq_of_lt hj]
        rw [hwrite, if_pos hq2, hdiv, hmod]
      · have he : (n + 1) * C = n * C + C := by ring
        rw [writeTick_getD_out _ _ _ _ _ (Or.inr (by omega)), ih (by omega) q,
          if_neg hq1, if_neg hq2]

/-- The single-burst loop over `W` ticks produces exactly the chronological
window of ticks `0, …, W-1`. -/
lemma singleLoop_eq_chron (W C : Nat) (ts : Nat → List Int) (init : List Int)
    (hlen : init.length = W * C) :
    singleLoop C ts init W = chron C ts 0 W := by
  apply list_eq_of_getD
  · rw [singleLoop_length, hlen, chron_length]
  · intro q hq
    rw [singleLoop_length, hlen] at hq
    rw [singleLoop_getD W C ts init hlen W le_rfl q, if_pos hq,
      chron_getD C ts 0 W q hq, Nat.zero_add]

/-- With an in-range offset, `fix_buffer` is exactly the left rotation of the
ring by `offset * C` positions. -/
lemma fix_buffer_eq_rotate (W C : Nat) (buf : List Int) (offset : Nat)
    (hlen : buf.length = W * C) (hoff : offset ≤ W) :
    fix_buffer W C buf offset = buf.rotate (offset * C) := by
  rcases Nat.eq_zero_or_pos (W * C) with htot | htot
  · have hbuf : buf = [] := List.eq_nil_of_length_eq_zero (by omega)
    subst hbuf
    show fixAux (W * C) [] (W * C) (offset * C) = List.rotate [] (offset * C)
    rw [htot, List.rotate_nil]
    rfl
  · apply list_eq_of_getD
    · rw [fix_buffer_len, List.length_rotate, hlen]
    · intro q hq
      rw [fix_buffer_len] at hq
      have h1 : (fix_buffer W C buf offset).getD q 0 =
          buf.getD ((offset * C + q) % (W * C)) 0 := by
        rw [fix_buffer_eq_map W C buf offset htot hoff,
          List.getD_eq_getElem _ _
            (by rw [List.length_map, List.length_range]; exact hq),
          List.getElem_map, List.getElem_range]
      have hq2 : q < (buf.rotate (offset * C)).length := by
        rw [List.length_rotate, hlen]; exact hq
      have hmodlt : (q + offset * C) % buf.length < buf.length :=
        Nat.mod_lt _ (by omega)
      have h2 : (buf.rotate (offset * C)).getD q 0 =
          buf.getD ((q + offset * C) % buf.length) 0 := by
        rw [List.getD_eq_getElem _ _ hq2, List.getElem_rotate]
        exact (List.getD_eq_getElem _ _ hmodlt).symm
      rw [h1, h2, hlen, Nat.add_comm q (offset * C)]

/-- C7: for every input ring buffer and every offset in `[0, W)`, the
extraction `fix_buffer` returns a sequence of exactly `W * C` readings,
never fewer. -/
theorem fix_buffer_length_spec (W C : Nat) (buf : List Int) (offset : Nat)
    (_hoff : offset < W) : (fix_buffer W C buf offset).length = W * C :=
  fix_buffer_len W C buf offset

/-- Witness for C7 at `W = 3`, `C = 1`, `offset = 1`. -/
theorem fix_buffer_length_spec_witness :
    1 < 3 ∧ (fix_buffer 3 1 [5, 6, 7] 1).length = 3 * 1 :=
  ⟨by decide, fix_buffer_length_spec 3 1 [5, 6, 7] 1 (by decide)⟩

/-- C10: for a buffer of length `W * C` and offset in `[0, W)`, `fix_buffer`
is the left rotation by `offset * C`: entry `c` of the output is
`buf[(offset * C + c) mod (W * C)]`, and the output is a permutation of the
input (the input itself is only read: the embedding is a pure function of
`buf`). -/
theorem fix_buffer_rotation_spec (W C : Nat) (buf : List Int) (offset : Nat)
    (hlen : buf.length = W * C) (hoff : offset < W) :
    (∀ c, c < W * C →
      (fix_buffer W C buf offset).getD c 0 =
        buf.getD ((offset * C + c) % (W * C)) 0)
    ∧ List.Perm (fix_buffer W C buf offset) buf := by
  constructor
  · intro c hc
    have htot : 0 < W * C := by omega
    rw [fix_buffer_eq_map W C buf offset htot hoff.le,
      List.getD_eq_getElem _ _
        (by rw [List.length_map, List.length_range]; exact hc),
      List.getElem_map, List.getElem_range]
  · rw [fix_buffer_eq_rotate W C buf offset hlen hoff.le]
    exact List.rotate_perm buf (offset * C)

/-- Witness for C10 at `W = 3`, `C = 2`, `offset = 2`. -/
theorem fix_buffer_rotation_spec_witness :
    ([10, 11, 20, 21, 30, 31] : List Int).length = 3 * 2 ∧ 2 < 3 ∧
    ((∀ c, c < 3 * 2 →
      (fix_buffer 3 2 [10, 11, 20, 21, 30, 31] 2).getD c 0 =
        ([10, 11, 20, 21, 30, 31] : List Int).getD ((2 * 2 + c) % (3 * 2)) 0)
    ∧ List.Perm (fix_buffer 3 2 [10, 11, 20, 21, 30, 31] 2)
        [10, 11, 20, 21, 30, 31]) :=
  ⟨by decide, by decide,
    fix_buffer_rotation_spec 3 2 [10, 11, 20, 21, 30, 31] 2 (by decide) (by decide)⟩

/-- C4: whatever has happened before, a tick whose SPI transfer fails kills
the run: no state after the failing tick is ever produced (so the tick index
is not advanced and nothing is written to the ring for that tick), and the
ticks after the failure are irrelevant.  In the C code this abort is the
`NULL`-pointer dereference of the unchecked `spi_transfer` result. -/
theorem transfer_failure_aborts (W C : Nat) (T : Int) (sinkOk : Bool)
    (st : ContState) (pre rest : List (Option (List Int))) :
    contRunE W C T sinkOk st (pre ++ none :: rest) = none := by
  induction pre generalizing st with
  | nil => rfl
  | cons tr pre ih =>
    show contRunE W C T sinkOk st (tr :: (pre ++ none :: rest)) = none
    cases tr with
    | none => rfl
    | some buf =>
      show (match contTickE W C T sinkOk st (some buf) with
            | none => none
            | some st2 => contRunE W C T sinkOk st2 (pre ++ none :: rest)) = none
      cases h : contTickE W C T sinkOk st (some buf) with
      | none => rfl
      | some st2 =>
        simp only []
        exact ih st2

/-- C5: when the first capture's persistence fails (`fopen` returning `NULL`,
e.g. because the output directory is missing), the run crashes instead of
continuing — while the very same readings with a working sink continue
sampling with `s_counter` reset to 0.  `W = 3`, `C = 1`, `T = 5`, both
readings 10 and then 0, uninitialised ring `[7, 8, 9]`. -/
theorem storage_failure_crashes :
    contRunE 3 1 5 false (initState [7, 8, 9]) [some [10], some [0]] = none
    ∧ (contRunE 3 1 5 true (initState [7, 8, 9]) [some [10], some [0]]).map
        ContState.s_counter = some 0 := by
  decide

/-- C6: while the machine is in COUNTING (`s_counter ≠ 0`), one tick advances
the counter to `s_counter + 1` (resetting to 0 when the capture threshold is
reached) and appends at most one capture — both outcomes are independent of
the tick's readings, which are never compared against `T`; moreover, once
`s_counter` has been set to 1 inside a tick's channel loop, the remaining
channels of that tick leave it at 1. -/
theorem counting_ignores_readings (W C : Nat) (T : Int) (st : ContState)
    (buf : List Int) (h : st.s_counter ≠ 0) :
    ((contTick W C T st buf).s_counter =
      (if W * 2 / 3 ≤ st.s_counter + 1 then 0 else st.s_counter + 1))
    ∧ ((contTick W C T st buf).captures.length =
        st.captures.length + (if W * 2 / 3 ≤ st.s_counter + 1 then 1 else 0))
    ∧ (∀ (r : List Int) (base : Nat) (buf2 : List Int),
        ((List.range C).foldl (chanStep T buf2 base) (r, 1)).2 = 1) := by
  have hs1 : s1Of C T st.s_counter buf = st.s_counter :=
    if_neg (fun hh => h hh.1)
  have hs2 : s2Of C T st.s_counter buf = st.s_counter + 1 := by
    unfold s2Of
    rw [hs1, if_neg h]
  refine ⟨?_, ?_, ?_⟩
  · rw [contTick_s_counter, hs2]
  · rw [contTick_captures, hs2]
    by_cases hcap : W * 2 / 3 ≤ st.s_counter + 1
    · rw [if_pos hcap, if_pos hcap, List.length_append]
      rfl
    · rw [if_neg hcap, if_neg hcap]
      rfl
  · intro r base buf2
    rw [foldl_chanStep_snd_range]
    unfold s1Of
    exact if_neg (fun hh => one_ne_zero hh.1)

/-- Witness for C6 at `W = 9`, `C = 1`, `T = 5`, `s_counter = 3` and a
reading far above the threshold. -/
theorem counting_ignores_readings_witness :
    (contTick 9 1 5 (ContState.mk [0, 0, 0, 0, 0, 0, 0, 0, 0] 3 5 5 []) [100]).s_counter =
      (if 9 * 2 / 3 ≤ 3 + 1 then 0 else 3 + 1) :=
  (counting_ignores_readings 9 1 5
    (ContState.mk [0, 0, 0, 0, 0, 0, 0, 0, 0] 3 5 5 []) [100] (by decide)).1

/-- C8: from IDLE (`s_counter = 0`), one tick moves the machine to COUNTING
exactly when some channel's reading is at least `T` (inclusive comparison);
the hypothesis `2 < W * 2 / 3` rules out degenerate window sizes for which a
capture would fire on the trigger tick itself. -/
theorem idle_threshold_iff (W C : Nat) (T : Int) (st : ContState)
    (buf : List Int) (h0 : st.s_counter = 0) (hth : 2 < W * 2 / 3) :
    ((contTick W C T st buf).s_counter ≠ 0 ↔ ∃ j, j < C ∧ T ≤ buf.getD j 0) := by
  rw [contTick_s_counter]
  by_cases hcr : ∃ j, j < C ∧ T ≤ buf.getD j 0
  · have hs1 : s1Of C T st.s_counter buf = 1 := if_pos ⟨h0, hcr⟩
    have hs2 : s2Of C T st.s_counter buf = 2 := by
      unfold s2Of
      rw [hs1, if_neg one_ne_zero]
    rw [hs2, if_neg (by omega)]
    exact iff_of_true (by omega) hcr
  · have hs1 : s1Of C T st.s_counter buf = st.s_counter :=
      if_neg (fun hh => hcr hh.2)
    have hs2 : s2Of C T st.s_counter buf = 0 := by
      unfold s2Of
      rw [hs1, if_pos h0]
    rw [hs2, if_neg (by omega)]
    exact iff_of_false (by omega) hcr

/-- Witness for C8 with the source threshold `T = 450`: a reading of exactly
450 triggers, a reading of 449 does not. -/
theorem idle_threshold_iff_witness :
    (((contTick 9 1 450 (initState [0, 0, 0, 0, 0, 0, 0, 0, 0]) [450]).s_counter ≠ 0 ↔
        ∃ j, j < 1 ∧ (450 : Int) ≤ ([450] : List Int).getD j 0)
    ∧ ((contTick 9 1 450 (initState [0, 0, 0, 0, 0, 0, 0, 0, 0]) [449]).s_counter ≠ 0 ↔
        ∃ j, j < 1 ∧ (450 : Int) ≤ ([449] : List Int).getD j 0)) :=
  ⟨idle_threshold_iff 9 1 450 (initState [0, 0, 0, 0, 0, 0, 0, 0, 0]) [450]
      rfl (by decide),
   idle_threshold_iff 9 1 450 (initState [0, 0, 0, 0, 0, 0, 0, 0, 0]) [449]
      rfl (by decide)⟩

/-- C3 counterexample: with `W = 3`, `C = 1`, `T = 5` and a first reading of
10, the capture test fires already at tick 0 — before `W - 1 = 2` ticks have
elapsed — and the extracted window `[10, 8, 9]` still contains the
uninitialised values 8 and 9 of the two slots that were never written. -/
theorem early_capture_cex :
    (0, ([10, 8, 9] : List Int)) ∈
      (contRunOk 3 1 5 [7, 8, 9] (fun _ => [(10 : Int)]) 1).captures
    ∧ ¬(3 - 1 ≤ (0 : Nat)) := by
  decide

/-- C3 (amended): capture completion at tick `t` only guarantees
`⌊2W/3⌋ ≤ t + 2`; since `⌊2W/3⌋ - 2 < W - 1`, completion can be declared
before `W` ticks have been written, in which case the extractor reads slots
still holding the uninitialised buffer contents. -/
theorem capture_tick_lower_bound (W C : Nat) (T : Int) (init : List Int)
    (ts : Nat → List Int) (n : Nat) (p : Nat × List Int) (hW : 0 < W)
    (hp : p ∈ (contRunOk W C T init ts n).captures) :
    W * 2 / 3 ≤ p.1 + 2 := by
  obtain ⟨_, h2, _⟩ := runOk_captures_mem W C T init ts hW n p hp
  have hb := runOk_s_le W C T init ts p.1
  unfold s2Of s1Of at h2
  by_cases h0 : (contRunOk W C T init ts p.1).s_counter = 0
  · by_cases hcr : ∃ j, j < C ∧ T ≤ (ts p.1).getD j 0
    · have hinner : (if (contRunOk W C T init ts p.1).s_counter = 0 ∧
          ∃ j, j < C ∧ T ≤ (ts p.1).getD j 0 then 1
          else (contRunOk W C T init ts p.1).s_counter) = 1 := if_pos ⟨h0, hcr⟩
      rw [hinner, if_neg one_ne_zero] at h2
      omega
    · have hinner : (if (contRunOk W C T init ts p.1).s_counter = 0 ∧
          ∃ j, j < C ∧ T ≤ (ts p.1).getD j 0 then 1
          else (contRunOk W C T init ts p.1).s_counter) =
          (contRunOk W C T init ts p.1).s_counter := if_neg (fun h => hcr h.2)
      rw [hinner, if_pos h0] at h2
      omega
  · have hinner : (if (contRunOk W C T init ts p.1).s_counter = 0 ∧
        ∃ j, j < C ∧ T ≤ (ts p.1).getD j 0 then 1
        else (contRunOk W C T init ts p.1).s_counter) =
        (contRunOk W C T init ts p.1).s_counter := if_neg (fun h => h0 h.1)
    rw [hinner, if_neg h0] at h2
    omega

/-- Witness for C3 (amended) at the early-capture run. -/
theorem capture_tick_lower_bound_witness :
    3 * 2 / 3 ≤ (0 : Nat) + 2 :=
  capture_tick_lower_bound 3 1 5 [7, 8, 9] (fun _ => [(10 : Int)]) 1
    (0, [10, 8, 9]) (by decide) (by decide)

/-- Readings for the C2 counterexample: channel 0 first crosses `T = 5` at
tick 2. -/
def tsC2 : Nat → List Int := fun k => [if k < 2 then 0 else 10]

/-- C2 counterexample: `W = 9`, `F = 2/3` (`(9*2)/3 = 6`), first crossing at
tick `t0 = 2`.  The claim predicts `s_counter = 1` at the end of tick `t0`
and completion at `t0 + 6 - 1 = 7`; the code ends tick `t0` with
`s_counter = 2` (it sets 1 and increments in the same iteration) and the one
capture of the first 8 ticks completes at tick 6, not 7. -/
theorem trigger_latency_cex :
    (contRunOk 9 1 5 (List.replicate 9 0) tsC2 3).s_counter = 2
    ∧ (contRunOk 9 1 5 (List.replicate 9 0) tsC2 8).captures.map Prod.fst = [6]
    ∧ (contRunOk 9 1 5 (List.replicate 9 0) tsC2 8).captures.map Prod.fst ≠ [7] := by
  decide

/-- C2 (amended): when the first threshold crossing happens at tick `t0` (no
channel reaches `T` before, some channel reaches `T` at `t0`), and
`⌊2W/3⌋ ≥ 2`, the machine stays at `s_counter = 0` with no capture up to and
including the state before tick `t0`; the crossing tick sets `s_counter` to 1
and increments it in the same iteration, so `d + 1` ticks after the start of
tick `t0` the counter reads `d + 2` (while below the completion threshold);
the window is declared complete when `s_counter` reaches `⌊2W/3⌋` — floor,
not ceiling — which happens at tick `t0 + ⌊2W/3⌋ - 2`, after which
`s_counter` is reset to 0. -/
theorem trigger_counter_evolution (W C : Nat) (T : Int) (init : List Int)
    (ts : Nat → List Int) (t0 : Nat)
    (hth : 2 ≤ W * 2 / 3)
    (hbefore : ∀ k, k < t0 → ¬ crossing C T ts k)
    (hat : crossing C T ts t0) :
    (∀ n, n ≤ t0 → (contRunOk W C T init ts n).s_counter = 0 ∧
      (contRunOk W C T init ts n).captures = [])
    ∧ (∀ d, d < W * 2 / 3 - 2 →
        (contRunOk W C T init ts (t0 + 1 + d)).s_counter = d + 2 ∧
        (contRunOk W C T init ts (t0 + 1 + d)).captures = [])
    ∧ (contRunOk W C T init ts (t0 + (W * 2 / 3 - 1))).s_counter = 0
    ∧ (contRunOk W C T init ts (t0 + (W * 2 / 3 - 1))).captures.map Prod.fst =
        [t0 + (W * 2 / 3 - 2)] := by
  have hA : ∀ n, n ≤ t0 → (contRunOk W C T init ts n).s_counter = 0 ∧
      (contRunOk W C T init ts n).captures = [] := by
    intro n
    induction n with
    | zero => intro _; exact ⟨rfl, rfl⟩
    | succ n ih =>
      intro hn
      obtain ⟨hs, hc⟩ := ih (by omega)
      have hncr : ¬ crossing C T ts n := hbefore n (by omega)
      have hs1 : s1Of C T ((contRunOk W C T init ts n).s_counter) (ts n) = 0 := by
        unfold s1Of
        rw [hs]
        exact if_neg (fun h => hncr h.2)
      have hs2 : s2Of C T ((contRunOk W C T init ts n).s_counter) (ts n) = 0 := by
        unfold s2Of
        rw [hs1, if_pos rfl]
      constructor
      · rw [contRunOk_succ, contTick_s_counter, hs2, if_neg (by omega)]
      · rw [contRunOk_succ, contTick_captures, hs2, if_neg (by omega), hc]
  have hAt0 := hA t0 le_rfl
  have hs1 : s1Of C T ((contRunOk W C T init ts t0).s_counter) (ts t0) = 1 := by
    unfold s1Of
    rw [hAt0.1]
    exact if_pos ⟨rfl, hat⟩
  have hs2 : s2Of C T ((contRunOk W C T init ts t0).s_counter) (ts t0) = 2 := by
    unfold s2Of
    rw [hs1, if_neg one_ne_zero]
  have hB : ∀ d, d < W * 2 / 3 - 2 →
      (contRunOk W C T init ts (t0 + 1 + d)).s_counter = d + 2 ∧
      (contRunOk W C T init ts (t0 + 1 + d)).captures = [] := by
    intro d
    induction d with
    | zero =>
      intro hd
      constructor
      · rw [contRunOk_succ, contTick_s_counter, hs2, if_neg (by omega)]
      · rw [contRunOk_succ, contTick_captures, hs2, if_neg (by omega), hAt0.2]
    | succ d ih =>
      intro hd
      obtain ⟨hsd, hcd⟩ := ih (by omega)
      have hs1d : s1Of C T ((contRunOk W C T init ts (t0 + 1 + d)).s_counter)
          (ts (t0 + 1 + d)) = d + 2 := by
        unfold s1Of
        rw [hsd]
        exact if_neg (fun h => absurd h.1 (by omega))
      have hs2d : s2Of C T ((contRunOk W C T init ts (t0 + 1 + d)).s_counter)
          (ts (t0 + 1 + d)) = d + 3 := by
        unfold s2Of
        rw [hs1d, if_neg (by omega)]
      constructor
      · rw [show t0 + 1 + (d + 1) = (t0 + 1 + d) + 1 by omega, contRunOk_succ,
          contTick_s_counter, hs2d, if_neg (by omega)]
      · rw [show t0 + 1 + (d + 1) = (t0 + 1 + d) + 1 by omega, contRunOk_succ,
          contTick_captures, hs2d, if_neg (by omega), hcd]
  have hC : (contRunOk W C T init ts (t0 + (W * 2 / 3 - 1))).s_counter = 0 ∧
      (contRunOk W C T init ts (t0 + (W * 2 / 3 - 1))).captures.map Prod.fst =
        [t0 + (W * 2 / 3 - 2)] := by
    by_cases hM : W * 2 / 3 = 2
    · have he1 : t0 + (W * 2 / 3 - 1) = t0 + 1 := by omega
      constructor
      · rw [he1, contRunOk_succ, contTick_s_counter, hs2, if_pos (by omega)]
      · rw [he1, contRunOk_succ, contTick_captures, hs2, if_pos (by omega),
          hAt0.2, runOk_t, List.nil_append, List.map_cons, List.map_nil]
        have he2 : t0 + (W * 2 / 3 - 2) = t0 := by omega
        rw [he2]
    · have hst := hB (W * 2 / 3 - 3) (by omega)
      rw [show t0 + 1 + (W * 2 / 3 - 3) = t0 + (W * 2 / 3 - 2) by omega] at hst
      have hs1e : s1Of C T
          ((contRunOk W C T init ts (t0 + (W * 2 / 3 - 2))).s_counter)
          (ts (t0 + (W * 2 / 3 - 2))) = W * 2 / 3 - 3 + 2 := by
        unfold s1Of
        rw [hst.1]
        exact if_neg (fun h => absurd h.1 (by omega))
      have hs2e : s2Of C T
          ((contRunOk W C T init ts (t0 + (W * 2 / 3 - 2))).s_counter)
          (ts (t0 + (W * 2 / 3 - 2))) = W * 2 / 3 := by
        unfold s2Of
        rw [hs1e, if_neg (by omega)]
        omega
      have he3 : t0 + (W * 2 / 3 - 1) = (t0 + (W * 2 / 3 - 2)) + 1 := by omega
      constructor
      · rw [he3, contRunOk_succ, contTick_s_counter, hs2e, if_pos le_rfl]
      · rw [he3, contRunOk_succ, contTick_captures, hs2e, if_pos le_rfl,
          hst.2, runOk_t, List.nil_append, List.map_cons, List.map_nil]
  exact ⟨hA, hB, hC.1, hC.2⟩

/-- Witness for C2 (amended) at `W = 9`, `C = 1`, `T = 5`, first crossing at
tick 2: the one capture of the run completes at tick `2 + 6 - 2 = 6`. -/
theorem trigger_counter_evolution_witness :
    (contRunOk 9 1 5 (List.replicate 9 0) tsC2 (2 + (9 * 2 / 3 - 1))).captures.map
      Prod.fst = [2 + (9 * 2 / 3 - 2)] :=
  (trigger_counter_evolution 9 1 5 (List.replicate 9 0) tsC2 2 (by decide)
    (by decide) (by decide)).2.2.2

/-- Readings for the C1 counterexample: below the threshold 50 until tick 4,
which reads 100. -/
def tsC1 : Nat → List Int := fun k => [if k < 4 then (k : Int) else 100]

/-- C1 counterexample: `W = 3`, `C = 1`, `T = 50`, first crossing at tick 4,
capture completes at tick 4 with 5 ≥ W ticks written.  The extracted window
is `[100, 2, 3]` — the newest tick first — not the chronological
oldest-first window `chron 1 tsC1 2 3 = [2, 3, 100]` the claim promises. -/
theorem fix_buffer_not_oldest_first_cex :
    (4, ([100, 2, 3] : List Int)) ∈
      (contRunOk 3 1 50 [0, 0, 0] tsC1 5).captures
    ∧ 3 ≤ 4 + 1
    ∧ ([100, 2, 3] : List Int) ≠ chron 1 tsC1 (4 + 1 - 3) 3 := by
  decide

/-- C1 (amended): for every capture completing at tick `t` with at least `W`
ticks written (`W ≤ t + 1`), the extracted window starts with the `C`
readings of the trigger tick `t` itself (the newest tick, at whose slot
`t mod W` the extraction starts), followed by the `W - 1` remaining ticks
`t+1-W, …, t-1` in chronological order: the chronological window rotated
right by one tick, not oldest-first. -/
theorem capture_window_rotated (W C : Nat) (T : Int) (init : List Int)
    (ts : Nat → List Int) (n t : Nat) (cap : List Int)
    (hW : 0 < W) (hC : 0 < C) (hlen : init.length = W * C)
    (hmem : (t, cap) ∈ (contRunOk W C T init ts n).captures)
    (hfull : W ≤ t + 1) :
    cap = chron C ts t 1 ++ chron C ts (t + 1 - W) (W - 1) := by
  obtain ⟨htn, _, hcap⟩ := runOk_captures_mem W C T init ts hW n (t, cap) hmem
  have htot : 0 < W * C := Nat.mul_pos hW hC
  have hmodW : t % W < W := Nat.mod_lt _ hW
  rw [show cap = fix_buffer W C ((contRunOk W C T init ts (t + 1)).ring) (t % W)
      from hcap,
    fix_buffer_eq_map W C _ (t % W) htot hmodW.le]
  apply list_eq_of_getD
  · rw [List.length_map, List.length_range, List.length_append, chron_length,
      chron_length]
    have h1 : 1 * C + (W - 1) * C = W * C := by
      have h2 : 1 + (W - 1) = W := by omega
      calc 1 * C + (W - 1) * C = (1 + (W - 1)) * C := by ring
        _ = W * C := by rw [h2]
    omega
  · intro q hq
    rw [List.length_map, List.length_range] at hq
    have hLHS : ((List.range (W * C)).map fun c =>
        ((contRunOk W C T init ts (t + 1)).ring).getD
          ((t % W * C + c) % (W * C)) 0).getD q 0 =
        ((contRunOk W C T init ts (t + 1)).ring).getD
          ((t % W * C + q) % (W * C)) 0 := by
      rw [List.getD_eq_getElem _ _
          (by rw [List.length_map, List.length_range]; exact hq),
        List.getElem_map, List.getElem_range]
    set m := q / C with hm
    set j := q % C with hj
    have hjC : j < C := Nat.mod_lt _ hC
    have hmW : m < W := by
      rw [hm]
      exact (Nat.div_lt_iff_lt_mul hC).mpr hq
    have hqd : q = m * C + j := by
      have h0 : C * m + j = q := by rw [hm, hj]; exact Nat.div_add_mod q C
      rw [← h0, Nat.mul_comm]
    have hidx : (t % W * C + q) % (W * C) = (t % W + m) % W * C + j := by
      have h1 : t % W * C + q = (t % W + m) * C + j := by rw [hqd]; ring
      rw [h1, mul_add_mod_decomp W C (t % W + m) j hjC]
    have hk : ∀ k, k < t + 1 → t + 1 ≤ k + W → k % W = (t % W + m) % W →
        ((contRunOk W C T init ts (t + 1)).ring).getD
          ((t % W + m) % W * C + j) 0 = (ts k).getD j 0 := by
      intro k hk1 hk2 hk3
      rw [← hk3]
      exact runOk_ring_getD W C T init ts hW hlen (t + 1) k j hk1 hk2 hjC
    by_cases hm0 : m = 0
    · have hqj : q = j := by
        rw [hm0] at hqd
        simpa using hqd
      have hkey := hk t (by omega) (by omega) (by
        rw [hm0, Nat.add_zero, Nat.mod_eq_of_lt hmodW])
      have hRHS : (chron C ts t 1 ++ chron C ts (t + 1 - W) (W - 1)).getD q 0 =
          (ts t).getD j 0 := by
        rw [List.getD_append _ _ _ q
            (by rw [chron_length, Nat.one_mul]; omega),
          chron_getD C ts t 1 q (by rw [Nat.one_mul]; omega),
          show q / C = 0 from by rw [← hm, hm0],
          show q % C = j from hj.symm, Nat.add_zero]
      rw [hLHS, hidx, hkey, hRHS]
    · have hm1 : 1 ≤ m := Nat.one_le_iff_ne_zero.mpr hm0
      have hkmod : (t + m - W) % W = (t % W + m) % W := by
        have hWtm : W ≤ t + m := by omega
        rw [← Nat.mod_eq_sub_mod hWtm, Nat.mod_add_mod]
      have hkey := hk (t + m - W) (by omega) (by omega) hkmod
      have hqC : C ≤ q := by
        have h1 : 1 * C ≤ m * C := Nat.mul_le_mul_right _ hm1
        have h2 : 1 * C = C := Nat.one_mul C
        omega
      have hWm : (W - 1) * C + C = W * C := by
        have h2 : W - 1 + 1 = W := by omega
        calc (W - 1) * C + C = (W - 1 + 1) * C := by ring
          _ = W * C := by rw [h2]
      have hsplit : q - C = j + (m - 1) * C := by
        have h3 : (m - 1) * C + C = m * C := by
          have h4 : m - 1 + 1 = m := by omega
          calc (m - 1) * C + C = (m - 1 + 1) * C := by ring
            _ = m * C := by rw [h4]
        omega
      have hRHS : (chron C ts t 1 ++ chron C ts (t + 1 - W) (W - 1)).getD q 0 =
          (ts (t + m - W)).getD j 0 := by
        rw [List.getD_append_right _ _ _ q
            (by rw [chron_length, Nat.one_mul]; omega),
          chron_length,
          chron_getD C ts (t + 1 - W) (W - 1) (q - 1 * C)
            (by rw [Nat.one_mul]; omega),
          Nat.one_mul,
          show (q - C) / C = m - 1 from by
            rw [hsplit, Nat.add_mul_div_right _ _ hC, Nat.div_eq_of_lt hjC]
            omega,
          show (q - C) % C = j from by
            rw [hsplit, Nat.add_mul_mod_self_right, Nat.mod_eq_of_lt hjC],
          show t + 1 - W + (m - 1) = t + m - W from by omega]
      rw [hLHS, hidx, hkey, hRHS]

/-- Witness for C1 (amended) at the `W = 3` run with capture at tick 4:
`[100, 2, 3]` is tick 4's reading followed by ticks 2 and 3. -/
theorem capture_window_rotated_witness :
    ([100, 2, 3] : List Int) =
      chron 1 tsC1 4 1 ++ chron 1 tsC1 (4 + 1 - 3) (3 - 1) :=
  capture_window_rotated 3 1 50 [0, 0, 0] tsC1 5 4 [100, 2, 3] (by decide)
    (by decide) (by decide) (by decide) (by decide)

/-- C9: in single-burst mode, exactly `W` ticks are acquired into the linear
buffer and it is persisted exactly once, unconditionally: the persistence
sink receives the one window consisting of ticks `0, …, W-1` in order.  No
trigger logic exists on this path: `singleLoop` and `singleMain` never
consult a threshold or a sustain counter, so the result cannot depend on
threshold crossings. -/
theorem single_mode_spec (W C : Nat) (init : List Int) (ts : Nat → List Int)
    (hlen : init.length = W * C) :
    (singleMain W C init ts).2 = [chron C ts 0 W] := by
  show [singleLoop C ts init W] = [chron C ts 0 W]
  rw [singleLoop_eq_chron W C ts init hlen]

/-- Witness for C9 at `W = 3`, `C = 2`. -/
theorem single_mode_spec_witness :
    (singleMain 3 2 [0, 0, 0, 0, 0, 0]
      (fun k => [(k : Int) * 10, (k : Int) * 10 + 1])).2 =
      [chron 2 (fun k => [(k : Int) * 10, (k : Int) * 10 + 1]) 0 3] :=
  single_mode_spec 3 2 [0, 0, 0, 0, 0, 0] _ (by decide)

end Chwspi
